import Mathlib

/-!
Verification of the ppc750cl instruction codec against its specification.

The development shallowly embeds:
* the bit-field insertion logic emitted by `gen_field` and the range checks
  emitted by `gen_parse_field` (genisa/src/asm.rs);
* the argument-count dispatch emitted by `gen_asm` (genisa/src/asm.rs);
* `Extensions` insert/remove/contains, `Ins::branch_dest`,
  `Ins::is_unconditional_branch`, `InsIter::next`, the `ParsedIns` display
  logic, `SignedHexLiteral`, and `Hash for Ins` (disasm/src/disasm.rs).

Pieces of the crate that exist only as generated output (the field
extraction code of the disassembler, the `parse_signed`/`parse_unsigned`
helpers, the `Extension` enum and `Opcode::detect`) are modelled from the
specification; each such definition carries a doc comment saying so.
-/

set_option maxRecDepth 10000

namespace Ppc

/-- Sign extension of an `m`-bit two's-complement bit pattern `x` to an
integer: the usual interpretation of the low `m` bits as a signed value. -/
def sext (m : Nat) (x : Nat) : Int :=
  if x < 2 ^ (m - 1) then (x : Int) else (x : Int) - 2 ^ m

/-- A bit field descriptor: `len` bits stored at bit offset `shift`
(`bits.shift()` in the source, i.e. the right-align distance), with a
post-extraction left shift `shift_left`, a signedness flag and a split
flag (the two 5-bit halves swapped between storage and logical order). -/
structure Field where
  len : Nat
  shift : Nat
  shift_left : Nat
  signed : Bool
  split : Bool
deriving DecidableEq

/-- The derived in-word mask of the field (`bits.mask()` in the source). -/
def Field.mask (f : Field) : Nat := ((1 <<< f.len) - 1) <<< f.shift

/-- The maximum unsigned magnitude of the field (`bits.max_value()`). -/
def Field.max_value (f : Field) : Nat := (1 <<< f.len) - 1

/-- Well-formedness of a field descriptor, as guaranteed by the ISA
description: a nonempty bit range inside the 32-bit word, a left shift
that keeps the value inside 32 bits, and split fields are exactly the
10-bit unshifted unsigned special-purpose/time-base register numbers. -/
def Field.Wf (f : Field) : Prop :=
  0 < f.len ∧ f.shift + f.len ≤ 32 ∧ f.shift_left + f.len ≤ 32 ∧
    (f.split = true → f.len = 10 ∧ f.shift_left = 0 ∧ f.signed = false)

instance (f : Field) : Decidable f.Wf := by unfold Field.Wf; infer_instance

/-- The 5-bit half swap emitted by `gen_field` for split fields:
`((value & 0b11111_00000) >> 5) | ((value & 0b00000_11111) << 5)`. -/
def swap5 (v : Nat) : Nat := ((v &&& 0x3E0) >>> 5) ||| ((v &&& 0x1F) <<< 5)

/-- The value staging emitted by `gen_field` (genisa/src/asm.rs) for one
field, parameterised by the right/left shift amounts actually emitted:
swap 5-bit halves if split, shift right by the field's post-extraction
left shift, mask, and shift left into the field's bit position.  (The
generator omits a shift stage whose amount is zero; shifting by zero is
the identity, so the staging is written unconditionally here.) -/
def gen_field_value (f : Field) (shift_right shift_left : Nat) (u : Nat) : Nat :=
  let v := if f.split then swap5 u else u
  let v := v >>> shift_left
  let v := v &&& (f.mask >>> shift_right)
  v <<< shift_right

/-- Insertion of a value into an instruction word at a field, exactly as
compiled by `gen_field`: the signed accessor is cast `as u32` (two's
complement), and when `bits.shift()` equals `shift_left` the two shift
stages are skipped (`shift_right = 0`, `shift_left = 0`) as an
optimization. -/
def Field.insert (f : Field) (v : Int) : Nat :=
  let u := (v % (2 ^ 32 : Int)).toNat
  if f.shift = f.shift_left then gen_field_value f 0 0 u
  else gen_field_value f f.shift f.shift_left u

/-- Modelled from the spec: the disassembler's field extraction (generated
code, not under src/) — "right-align via the field's range, apply mask,
undo left-shift, sign-extend if signed, and swap 5-bit halves first if
split". -/
def Field.extract (f : Field) (w : Nat) : Int :=
  let u := (w >>> f.shift) &&& (f.mask >>> f.shift)
  let u := if f.split then swap5 u else u
  let u := u <<< f.shift_left
  if f.signed then sext (f.len + f.shift_left) u else (u : Int)

/-- The legal domain of a field per the specification:
`[-(2^(n-1)) << shift, (2^(n-1)-1) << shift]` for a signed `n`-bit field,
`[0, max_value << shift]` for an unsigned one. -/
def Field.legalDomain (f : Field) (v : Int) : Prop :=
  if f.signed then
    -((2 : Int) ^ (f.len - 1 + f.shift_left)) ≤ v ∧
      v ≤ ((2 : Int) ^ (f.len - 1) - 1) * 2 ^ f.shift_left
  else
    0 ≤ v ∧ v ≤ ((f.max_value : Int)) * 2 ^ f.shift_left

instance (f : Field) (v : Int) : Decidable (f.legalDomain v) := by
  unfold Field.legalDomain; exact instDecidableIte

/-- The branch-displacement field `BD` of the conditional branch opcode:
14 bits stored at bit offset 2, signed, with a post-extraction left shift
of 2 (a word-aligned displacement). -/
def fieldBD : Field := ⟨14, 2, 2, true, false⟩

/-- The encode-time error taxonomy of the assembler (`ArgumentError`). -/
inductive ArgumentError where
  | UnknownMnemonic
  | ArgCount (value : Nat) (expected : Nat)
  | ValueOutOfRange
deriving DecidableEq

/-- Modelled from the spec: the `parse_signed` helper of the generated
assembler support code (not under src/) — an encode-time range check
against the `min_value`/`max_value` bounds it is handed, returning
`ValueOutOfRange` outside `[min_value, max_value]` ("values outside this
domain are an encode-time error") and the value itself inside. -/
def parse_signed (v min_value max_value : Int) : Except ArgumentError Int :=
  if v < min_value ∨ max_value < v then .error .ValueOutOfRange else .ok v

/-- The range check `gen_parse_field` (genisa/src/asm.rs) emits for a
signed field: `max_value = 1 << (bits.len() - 1 + shift_left)` and
`min_value = -max_value`. -/
def gen_parse_field_signed (f : Field) (v : Int) : Except ArgumentError Int :=
  parse_signed v (-((2 : Int) ^ (f.len - 1 + f.shift_left)))
    ((2 : Int) ^ (f.len - 1 + f.shift_left))

/-- Composition of the emitted range check and the field insertion for one
field, as in `gen_opcode`: a range error stops composition immediately, so
no word is produced. -/
def encode_signed_field (f : Field) (v : Int) : Except ArgumentError Nat :=
  (gen_parse_field_signed f v).map f.insert

/-- The tagged operand union of the Argument Model (disasm/src/disasm.rs).
Unsigned payloads (`u8`/`u16`) are modelled as `Nat`, signed ones
(`i16`/`i32`) as `Int`.  The source's `OpaqueU` constructor is named
`OpaqU` here. -/
inductive Argument where
  | None
  | GPR (x : Nat)
  | FPR (x : Nat)
  | SR (x : Nat)
  | SPR (x : Nat)
  | CRField (x : Nat)
  | CRBit (x : Nat)
  | GQR (x : Nat)
  | Uimm (x : Nat)
  | Simm (x : Int)
  | Offset (x : Int)
  | BranchDest (x : Int)
  | OpaqU (x : Nat)
  | VR (x : Nat)
deriving DecidableEq

/-- Lowercase hexadecimal digit, as Rust's LowerHex produces. -/
def hexDigitChar (n : Nat) : Char :=
  if n < 10 then Char.ofNat (48 + n) else Char.ofNat (87 + n)

/-- Fuel-bounded accumulation of hexadecimal digits, most significant first. -/
def hexCharsAux : Nat → Nat → List Char → List Char
  | 0, _, acc => acc
  | fuel + 1, n, acc =>
    if n = 0 then acc else hexCharsAux fuel (n / 16) (hexDigitChar (n % 16) :: acc)

/-- The lowercase hexadecimal rendering of a natural number (no prefix). -/
def natHex (n : Nat) : String :=
  if n = 0 then "0" else String.mk (hexCharsAux (n + 1) n [])

/-- Rust's `LowerHex` with the alternate (`#`) flag on a `bits`-wide signed
integer: an `0x` prefix followed by the two's-complement bit pattern in
lowercase hex. -/
def lowerHexAlt (bits : Nat) (x : Int) : String :=
  "0x" ++ natHex ((x % ((2 : Int) ^ bits)).toNat)

/-- Two's-complement wrap of an integer into the signed `bits`-wide range,
the semantics of Rust's integer arithmetic under widening casts. -/
def wrapSigned (bits : Nat) (x : Int) : Int :=
  (x + 2 ^ (bits - 1)) % 2 ^ bits - 2 ^ (bits - 1)

/-- `LowerHex for SignedHexLiteral<i16>` (disasm/src/disasm.rs) under the
`\x7b:#x\x7d` format of `Simm`/`Offset`: a negative value prints a minus
sign and then the hex of its negation computed in the widened `i32`;
otherwise the value prints as plain hex. -/
def signedHexI16 (v : Int) : String :=
  if v < 0 then "-" ++ lowerHexAlt 32 (wrapSigned 32 (-v)) else lowerHexAlt 16 v

/-- `LowerHex for SignedHexLiteral<i32>` (disasm/src/disasm.rs): as the
`i16` instance, widening to `i64` for the negation. -/
def signedHexI32 (v : Int) : String :=
  if v < 0 then "-" ++ lowerHexAlt 64 (wrapSigned 64 (-v)) else lowerHexAlt 32 v

/-- The special-purpose-register name table of `impl Display for SPR`
(disasm/src/disasm.rs); unmapped numbers render as their decimal value. -/
def sprName (n : Nat) : String :=
  match n with
  | 1 => "XER"
  | 8 => "LR"
  | 9 => "CTR"
  | 18 => "DSISR"
  | 19 => "DAR"
  | 22 => "DEC"
  | 25 => "SDR1"
  | 26 => "SRR0"
  | 27 => "SRR1"
  | 272 => "SPRG0"
  | 273 => "SPRG1"
  | 274 => "SPRG2"
  | 275 => "SPRG3"
  | 282 => "EAR"
  | 287 => "PVR"
  | 528 => "IBAT0U"
  | 529 => "IBAT0L"
  | 530 => "IBAT1U"
  | 531 => "IBAT1L"
  | 532 => "IBAT2U"
  | 533 => "IBAT2L"
  | 534 => "IBAT3U"
  | 535 => "IBAT3L"
  | 536 => "DBAT0U"
  | 537 => "DBAT0L"
  | 538 => "DBAT1U"
  | 539 => "DBAT1L"
  | 540 => "DBAT2U"
  | 541 => "DBAT2L"
  | 542 => "DBAT3U"
  | 543 => "DBAT3L"
  | 912 => "GQR0"
  | 913 => "GQR1"
  | 914 => "GQR2"
  | 915 => "GQR3"
  | 916 => "GQR4"
  | 917 => "GQR5"
  | 918 => "GQR6"
  | 919 => "GQR7"
  | 920 => "HID2"
  | 921 => "WPAR"
  | 922 => "DMA_U"
  | 923 => "DMA_L"
  | 936 => "UMMCR0"
  | 937 => "UPMC1"
  | 938 => "UPMC2"
  | 939 => "USIA"
  | 940 => "UMMCR1"
  | 941 => "UPMC3"
  | 942 => "UPMC4"
  | 943 => "USDA"
  | 952 => "MMCR0"
  | 953 => "PMC1"
  | 954 => "PMC2"
  | 955 => "SIA"
  | 956 => "MMCR1"
  | 957 => "PMC3"
  | 958 => "PMC4"
  | 959 => "SDA"
  | 1008 => "HID0"
  | 1009 => "HID1"
  | 1010 => "IABR"
  | 1013 => "DABR"
  | 1017 => "L2CR"
  | 1019 => "ICTC"
  | 1020 => "THRM1"
  | 1021 => "THRM2"
  | 1022 => "THRM3"
  | _ => toString n

/-- The condition-code suffix table `CR_NAMES` of `impl Display for CRBit`. -/
def crName (cc : Nat) : String :=
  match cc with
  | 0 => "lt"
  | 1 => "gt"
  | 2 => "eq"
  | _ => "un"

/-- The per-variant rendering rules of `impl Display for Argument` and the
`field_arg!` format strings (disasm/src/disasm.rs). -/
def argToString (a : Argument) : String :=
  match a with
  | .None => ""
  | .GPR x => "r" ++ toString x
  | .FPR x => "f" ++ toString x
  | .SR x => toString x
  | .SPR x => sprName x
  | .CRField x => "cr" ++ toString x
  | .CRBit x =>
      (if x >>> 2 ≠ 0 then "cr" ++ toString (x >>> 2) else "") ++ crName (x &&& 3)
  | .GQR x => "qr" ++ toString x
  | .Uimm x => "0x" ++ natHex x
  | .Simm x => signedHexI16 x
  | .Offset x => signedHexI16 x
  | .BranchDest x => signedHexI32 x
  | .OpaqU x => toString x
  | .VR x => "v" ++ toString x

/-- One compiled mnemonic body registered under a shared assembler name:
its declared argument count and its encoder function. -/
structure MnemonicEntry where
  arity : Nat
  encode : List Argument → Except ArgumentError Nat

/-- Modelled from the spec: `arg_count` of the generated assembler support
code (not under src/) counts the supplied arguments — the slots before the
first `None` sentinel of the fixed-capacity argument array. -/
def arg_count (args : List Argument) : Nat :=
  (args.takeWhile (fun a => decide (a ≠ Argument.None))).length

/-- The dispatch function `gen_asm` compiles for a name shared by several
mnemonics (genisa/src/asm.rs): a `match` on `arg_count(args)` whose arms
are the mnemonics' arities in declaration order, with a default arm
returning `ArgCount` against the largest arity. -/
def gen_dispatch (ms : List MnemonicEntry) (args : List Argument) :
    Except ArgumentError Nat :=
  match ms.find? (fun m => m.arity == arg_count args) with
  | some m => m.encode args
  | none =>
      .error (.ArgCount (arg_count args) ((ms.map (fun m => m.arity)).foldl Nat.max 0))

/-- A concrete one-argument mnemonic body, for exercising the dispatch. -/
def mnemonicArity1 : MnemonicEntry := ⟨1, fun _ => .ok 111⟩

/-- A concrete three-argument mnemonic body, for exercising the dispatch. -/
def mnemonicArity3 : MnemonicEntry := ⟨3, fun _ => .ok 222⟩

/-- The CPU feature-extension set `Extensions(u32)` (disasm/src/disasm.rs). -/
structure Extensions where
  bits : Nat
deriving DecidableEq

/-- Modelled from the spec: the generated `Extension` enum (not under src/)
reduced to what the `Extensions` operations consume — the enum discriminant
(`ext as u32`, the extension's own bit position) and the effective
prerequisite-inclusive `bitmask()`, which always contains the own bit, fits
in 32 bits, and has the own bit at the discriminant's position. -/
structure Extension where
  index : Nat
  bitmask : Nat
  index_lt : index < 32
  bitmask_lt : bitmask < 2 ^ 32
  own_bit : bitmask.testBit index = true

/-- `Extensions::insert`: OR in the effective (prerequisite-inclusive)
bitmask. -/
def Extensions.insert (s : Extensions) (e : Extension) : Extensions :=
  ⟨s.bits ||| e.bitmask⟩

/-- `Extensions::remove`: clear only the bit of the specific extension,
`self.0 &= !(1 << (ext as u32))`. -/
def Extensions.remove (s : Extensions) (e : Extension) : Extensions :=
  ⟨s.bits &&& ((1 <<< e.index) ^^^ (2 ^ 32 - 1))⟩

/-- `Extensions::contains`: every bit of the effective bitmask is set. -/
def Extensions.contains (s : Extensions) (e : Extension) : Bool :=
  (s.bits &&& e.bitmask) == e.bitmask

/-- `Extensions::contains_all`. -/
def Extensions.contains_all (s other : Extensions) : Bool :=
  (s.bits &&& other.bits) == other.bits

/-- `Extensions::none()`. -/
def Extensions.noExt : Extensions := ⟨0⟩

/-- The operation tags needed by the branch queries: the four branch
opcodes and `Illegal`.  Modelled from the spec for the rest: the full
generated `Opcode` enum is not under src/, so every other operation is
collapsed into `Other`. -/
inductive Opcode where
  | B
  | Bc
  | Bcctr
  | Bclr
  | Illegal
  | Other
deriving DecidableEq

/-- A PowerPC instruction: its raw 32-bit code and classified operation. -/
structure Ins where
  code : Nat
  op : Opcode
deriving DecidableEq

/-- The branch-displacement field `LI` of the unconditional branch opcode:
24 bits stored at bit offset 2, signed, left shift 2. -/
def fieldLI : Field := ⟨24, 2, 2, true, false⟩

/-- Modelled from the spec: the generated accessor `field_li` — signed
extraction of the `LI` field. -/
def field_li (code : Nat) : Int := fieldLI.extract code

/-- Modelled from the spec: the generated accessor `field_bd` — signed
extraction of the `BD` field. -/
def field_bd (code : Nat) : Int := fieldBD.extract code

/-- Modelled from the spec: the generated accessor `field_aa` — the
absolute-address modifier bit (bit 1 of the word). -/
def field_aa (code : Nat) : Bool := decide (code &&& 2 = 2)

/-- Modelled from the spec: the generated accessor `field_bo` — the
branch-options field (5 bits at offset 21). -/
def field_bo (code : Nat) : Nat := (code >>> 21) &&& 0x1F

/-- Modelled from the spec: the generated accessor `field_bi` — the
condition-bit-index field (5 bits at offset 16). -/
def field_bi (code : Nat) : Nat := (code >>> 16) &&& 0x1F

/-- Modelled from the spec: `Opcode::detect` (generated, not under src/)
restricted to the opcodes modelled here — the branch opcodes are recognized
by their fixed patterns, and every other bit pattern collapses to
`Illegal`. -/
def Opcode.detect (code : Nat) (_ : Extensions) : Opcode :=
  if code >>> 26 = 18 then .B
  else if code >>> 26 = 16 then .Bc
  else if code >>> 26 = 19 && (code >>> 1) &&& 0x3FF == 16 then .Bclr
  else if code >>> 26 = 19 && (code >>> 1) &&& 0x3FF == 528 then .Bcctr
  else .Illegal

/-- `Ins::new`: classify a raw code under the enabled extensions. -/
def Ins.new (code : Nat) (extensions : Extensions) : Ins :=
  ⟨code, Opcode.detect code extensions⟩

/-- `u32::checked_add_signed`: `None` when the sum leaves the 32-bit
unsigned range. -/
def checked_add_signed (a : Nat) (b : Int) : Option Nat :=
  if 0 ≤ (a : Int) + b ∧ (a : Int) + b < 2 ^ 32 then some ((a : Int) + b).toNat else none

/-- `Ins::branch_offset` (disasm/src/disasm.rs). -/
def Ins.branch_offset (i : Ins) : Option Int :=
  match i.op with
  | .B => some (field_li i.code)
  | .Bc => some (field_bd i.code)
  | _ => none

/-- `Ins::branch_dest` (disasm/src/disasm.rs): the raw offset reinterpreted
as `u32` when the absolute-address bit is set, otherwise the checked signed
addition to the address. -/
def Ins.branch_dest (i : Ins) (addr : Nat) : Option Nat :=
  i.branch_offset.bind fun offset =>
    if field_aa i.code then some ((offset % ((2 : Int) ^ 32)).toNat)
    else checked_add_signed addr offset

/-- `Ins::is_branch`. -/
def Ins.is_branch (i : Ins) : Bool :=
  match i.op with
  | .B | .Bc | .Bcctr | .Bclr => true
  | _ => false

/-- `Ins::is_direct_branch`. -/
def Ins.is_direct_branch (i : Ins) : Bool :=
  match i.op with
  | .B | .Bc => true
  | _ => false

/-- `Ins::is_unconditional_branch` (disasm/src/disasm.rs). -/
def Ins.is_unconditional_branch (i : Ins) : Bool :=
  match i.op with
  | .B => true
  | .Bc | .Bcctr | .Bclr => field_bo i.code == 20 && field_bi i.code == 0
  | _ => false

/-- `Ins::is_conditional_branch`. -/
def Ins.is_conditional_branch (i : Ins) : Bool :=
  i.is_branch && !i.is_unconditional_branch

/-- `u32::from_be_bytes` on four bytes. -/
def be32 (b0 b1 b2 b3 : Nat) : Nat :=
  (b0 <<< 24) ||| (b1 <<< 16) ||| (b2 <<< 8) ||| b3

/-- `InsIter` unrolled over a byte list: `next()` stops when fewer than 4
bytes remain, otherwise consumes one big-endian word, yields it with the
current address and advances the address by 4 (u32 wrap-around). -/
def insIterList (ext : Extensions) : Nat → List Nat → List (Nat × Ins)
  | addr, b0 :: b1 :: b2 :: b3 :: rest =>
      (addr, Ins.new (be32 b0 b1 b2 b3) ext) :: insIterList ext ((addr + 4) % 2 ^ 32) rest
  | _, _ => []

/-- A parsed instruction: the mnemonic text and the argument list (the
fixed-capacity `Arguments` array, iterated up to the first `None`). -/
structure ParsedIns where
  mnemonic : String
  args : List Argument

/-- `args_iter`: the arguments before the first `None` sentinel. -/
def ParsedIns.argsIter (p : ParsedIns) : List Argument :=
  p.args.takeWhile (fun a => decide (a ≠ Argument.None))

/-- Whether an argument is an `Offset`. -/
def isOffset (a : Argument) : Bool :=
  match a with
  | .Offset _ => true
  | _ => false

/-- The argument loop of `impl Display for ParsedIns` (disasm/src/disasm.rs),
parameterised by the loop index and the `writing_offset` flag: a space
before the first argument, `", "` before later ones unless an offset is
being written, the argument itself, then `"("` after an `Offset` (setting
the flag) or `")"` when the flag was set (clearing it). -/
def renderArgs : List Argument → Nat → Bool → String
  | [], _, _ => ""
  | a :: rest, i, writing_offset =>
      (if i = 0 then " " else if writing_offset then "" else ", ")
        ++ argToString a
        ++ (if isOffset a then "(" else if writing_offset then ")" else "")
        ++ renderArgs rest (i + 1) (isOffset a)

/-- `impl Display for ParsedIns`: the mnemonic followed by the rendered
argument list. -/
def ParsedIns.render (p : ParsedIns) : String :=
  p.mnemonic ++ renderArgs p.argsIter 0 false

/-- The specification's token view of an argument list: an `Offset`
immediately followed by a register renders as one `offset(register)`
token, every other argument stands alone. -/
def specTokens : List Argument → List String
  | Argument.Offset o :: Argument.GPR r :: rest =>
      (argToString (Argument.Offset o) ++ "(" ++ argToString (Argument.GPR r) ++ ")")
        :: specTokens rest
  | a :: rest => argToString a :: specTokens rest
  | [] => []

/-- Comma-joined continuation of a token list. -/
def commaTail : List String → String
  | [] => ""
  | t :: ts => ", " ++ t ++ commaTail ts

/-- The token list joined with `", "` separators, prefixed by a single
space (or by `", "` when continuing after position `i > 0`). -/
def specJoin (i : Nat) (ts : List String) : String :=
  match ts with
  | [] => ""
  | t :: ts => (if i = 0 then " " else ", ") ++ (t ++ commaTail ts)

/-- The rendering the specification describes: the mnemonic, a single
space, then the tokens separated by `", "`, an `Offset` and the register
after it fused into one `offset(register)` token. -/
def renderSpec (p : ParsedIns) : String :=
  p.mnemonic ++ specJoin 0 (specTokens p.argsIter)

/-- The argument-list invariant under which the claim's exception clause is
stated: every `Offset` argument is immediately followed by a register
argument. -/
inductive OffsetsPaired : List Argument → Prop
  | nil : OffsetsPaired []
  | pair (o : Int) (r : Nat) (rest : List Argument) (h : OffsetsPaired rest) :
      OffsetsPaired (Argument.Offset o :: Argument.GPR r :: rest)
  | other (a : Argument) (rest : List Argument) (hn : isOffset a = false)
      (h : OffsetsPaired rest) : OffsetsPaired (a :: rest)

/-- `impl Hash for Ins` (disasm/src/disasm.rs): hashing feeds only the raw
code to the hasher, modelled as one call of an arbitrary hasher-step
function. -/
def Ins.hashFeed {σ : Type} (step : σ → Nat → σ) (state : σ) (i : Ins) : σ :=
  step state i.code

theorem sext_emod (m : Nat) (hm : 0 < m) (q : Int)
    (h1 : -((2 : Int) ^ (m - 1)) ≤ q) (h2 : q < 2 ^ (m - 1)) :
    sext m ((q % ((2 : Int) ^ m)).toNat) = q := by
  have hpow : (2 : Int) ^ m = 2 * 2 ^ (m - 1) := by
    conv_lhs => rw [show m = (m - 1) + 1 by omega]
    ring
  have hhalf : (0 : Int) < 2 ^ (m - 1) := by positivity
  rcases le_or_lt 0 q with hq | hq
  · have hqlt : q < (2 : Int) ^ m := by omega
    rw [Int.emod_eq_of_lt hq hqlt]
    have hcast : ((q.toNat : Int)) = q := Int.toNat_of_nonneg hq
    have hlt : q.toNat < 2 ^ (m - 1) := by
      have : ((q.toNat : Int)) < ((2 ^ (m - 1) : Nat) : Int) := by push_cast; omega
      exact_mod_cast this
    unfold sext
    rw [if_pos hlt, hcast]
  · have hmod : q % ((2 : Int) ^ m) = q + 2 ^ m := by
      have h0 : q % ((2 : Int) ^ m) = (q + 2 ^ m * 1) % (2 ^ m) := by
        rw [Int.add_mul_emod_self_left]
      rw [h0, Int.mul_one]
      exact Int.emod_eq_of_lt (by omega) (by omega)
    rw [hmod]
    have hge : ¬ ((q + 2 ^ m).toNat < 2 ^ (m - 1)) := by
      have : ((2 ^ (m - 1) : Nat) : Int) ≤ (q + 2 ^ m : Int) := by push_cast; omega
      omega
    unfold sext
    rw [if_neg hge]
    have : (((q + 2 ^ m).toNat : Int)) = q + 2 ^ m := Int.toNat_of_nonneg (by omega)
    omega

theorem mask_shift (f : Field) : f.mask >>> f.shift = 2 ^ f.len - 1 := by
  unfold Field.mask
  rw [Nat.shiftLeft_shiftRight, Nat.shiftLeft_eq, one_mul]

theorem Field.testBit_mask (f : Field) (i : Nat) :
    f.mask.testBit i = (decide (f.shift ≤ i) && decide (i - f.shift < f.len)) := by
  unfold Field.mask
  rw [Nat.shiftLeft_eq 1 f.len, one_mul]
  simp [Nat.testBit_shiftLeft, Nat.testBit_two_pow_sub_one]

/-- The staging with both shift stages dropped agrees with the full staging
whenever the field's bit position equals its post-extraction left shift:
this is the shift-skipping optimization of `gen_field`. -/
theorem gen_field_value_opt_eq (f : Field) (u : Nat) (h : f.shift = f.shift_left) :
    gen_field_value f 0 0 u = gen_field_value f f.shift f.shift_left u := by
  unfold gen_field_value
  rw [← h]
  simp only [Nat.shiftRight_zero, Nat.shiftLeft_zero]
  apply Nat.eq_of_testBit_eq
  intro i
  rw [mask_shift]
  simp only [Nat.testBit_and, Nat.testBit_shiftLeft, Nat.testBit_shiftRight,
    Nat.testBit_two_pow_sub_one, Field.testBit_mask]
  rcases le_or_lt f.shift i with hle | hlt
  · have h2 : f.shift + (i - f.shift) = i := by omega
    rw [h2]
    cases (if f.split then swap5 u else u).testBit i <;> simp [hle]
  · simp [show ¬ (f.shift ≤ i) by omega]

theorem Field.insert_eq (f : Field) (v : Int) :
    f.insert v = gen_field_value f f.shift f.shift_left ((v % (2 ^ 32 : Int)).toNat) := by
  unfold Field.insert
  by_cases h : f.shift = f.shift_left
  · rw [if_pos h, gen_field_value_opt_eq f _ h]
  · rw [if_neg h]

theorem swap5_lt : ∀ u, u < 1024 → swap5 u < 1024 := by decide

theorem swap5_swap5 : ∀ u, u < 1024 → swap5 (swap5 u) = u := by decide

theorem Field.insert_reduce (f : Field) (v : Int) :
    f.insert v =
      (if f.split then swap5 ((v % (2 ^ 32 : Int)).toNat)
        else (v % (2 ^ 32 : Int)).toNat) / 2 ^ f.shift_left % 2 ^ f.len * 2 ^ f.shift := by
  rw [Field.insert_eq]
  unfold gen_field_value
  rw [mask_shift]
  simp only [Nat.shiftRight_eq_div_pow, Nat.and_pow_two_sub_one_eq_mod, Nat.shiftLeft_eq]

theorem Field.extract_reduce (f : Field) (w : Nat) :
    f.extract w =
      (if f.signed then
        sext (f.len + f.shift_left)
          ((if f.split then swap5 (w / 2 ^ f.shift % 2 ^ f.len)
            else w / 2 ^ f.shift % 2 ^ f.len) * 2 ^ f.shift_left)
      else (((if f.split then swap5 (w / 2 ^ f.shift % 2 ^ f.len)
            else w / 2 ^ f.shift % 2 ^ f.len) * 2 ^ f.shift_left : Nat) : Int)) := by
  unfold Field.extract
  rw [mask_shift]
  simp only [Nat.shiftRight_eq_div_pow, Nat.and_pow_two_sub_one_eq_mod, Nat.shiftLeft_eq]

theorem Field.round_trip (f : Field) (hwf : f.Wf) (v : Int)
    (hdom : f.legalDomain v) (halign : ((2 : Int) ^ f.shift_left) ∣ v) :
    f.extract (f.insert v) = v := by
  obtain ⟨hlen, hfit, hsfit, hsplit⟩ := hwf
  have htpos : (0 : Nat) < 2 ^ f.shift := by positivity
  rw [Field.insert_reduce, Field.extract_reduce]
  by_cases hsp : f.split = true
  · obtain ⟨h10, h0, hsgn⟩ := hsplit hsp
    unfold Field.legalDomain at hdom
    rw [if_neg (by rw [hsgn]; simp)] at hdom
    unfold Field.max_value at hdom
    rw [h0, Nat.shiftLeft_eq, one_mul, h10] at hdom
    obtain ⟨hd0, hd1⟩ := hdom
    have hv : v % (2 ^ 32 : Int) = v := Int.emod_eq_of_lt hd0 (by norm_num at hd1 ⊢; omega)
    rw [hsp, hsgn, h10, h0, hv]
    simp only [if_true, pow_zero, Nat.div_one, mul_one]
    have hvn : v.toNat < 1024 := by
      have := Int.toNat_of_nonneg hd0
      norm_num at hd1
      omega
    have hs1 : swap5 v.toNat < 1024 := swap5_lt _ hvn
    rw [Nat.mod_eq_of_lt (by norm_num; omega), Nat.mul_div_cancel _ htpos,
      Nat.mod_eq_of_lt (by norm_num; omega), swap5_swap5 _ hvn]
    exact Int.toNat_of_nonneg hd0
  · have hspF : f.split = false := by revert hsp; cases f.split <;> simp
    rw [hspF]
    simp only [if_false, Bool.false_eq_true]
    by_cases hsg : f.signed = true
    · -- signed, non-split
      unfold Field.legalDomain at hdom
      rw [if_pos hsg] at hdom
      obtain ⟨hdl, hdu⟩ := hdom
      obtain ⟨q, hq⟩ := halign
      have h2s : (0 : Int) < 2 ^ f.shift_left := by positivity
      have h2n1 : (0 : Int) < 2 ^ (f.len - 1) := by positivity
      have hql : -((2 : Int) ^ (f.len - 1)) ≤ q := by
        rw [hq, pow_add] at hdl
        nlinarith
      have hqu : q ≤ (2 : Int) ^ (f.len - 1) - 1 := by
        rw [hq] at hdu
        nlinarith
      have step1 : v % (2 ^ 32 : Int) = 2 ^ f.shift_left * (q % 2 ^ (32 - f.shift_left)) := by
        have h32 : (2 : Int) ^ f.shift_left * 2 ^ (32 - f.shift_left) = 2 ^ 32 := by
          rw [← pow_add]; congr 1; omega
        rw [hq, ← h32, Int.mul_emod_mul_of_pos _ _ h2s]
      set r : Nat := (q % ((2 : Int) ^ (32 - f.shift_left))).toNat with hrdef
      have hrInt : (r : Int) = q % 2 ^ (32 - f.shift_left) :=
        Int.toNat_of_nonneg (Int.emod_nonneg q (by positivity))
      have hu : (v % (2 ^ 32 : Int)).toNat = 2 ^ f.shift_left * r := by
        have hcast : (2 : Int) ^ f.shift_left * (r : Int) =
            ((2 ^ f.shift_left * r : Nat) : Int) := by push_cast; ring
        rw [step1, ← hrInt, hcast, Int.toNat_natCast]
      have hyInt : ((r % 2 ^ f.len : Nat) : Int) = q % 2 ^ f.len := by
        have : ((r % 2 ^ f.len : Nat) : Int) = (r : Int) % 2 ^ f.len := by push_cast; ring
        rw [this, hrInt]
        exact Int.emod_emod_of_dvd q (pow_dvd_pow 2 (by omega))
      have hzInt : (((r % 2 ^ f.len) * 2 ^ f.shift_left : Nat) : Int) =
          v % 2 ^ (f.len + f.shift_left) := by
        have h1 : (((r % 2 ^ f.len) * 2 ^ f.shift_left : Nat) : Int) =
            ((r % 2 ^ f.len : Nat) : Int) * 2 ^ f.shift_left := by push_cast; ring
        have h2 : (2 : Int) ^ f.shift_left * 2 ^ f.len = 2 ^ (f.len + f.shift_left) := by
          rw [← pow_add]; congr 1; omega
        rw [h1, hyInt]
        calc (q % 2 ^ f.len) * 2 ^ f.shift_left
            = 2 ^ f.shift_left * (q % 2 ^ f.len) := by ring
          _ = (2 ^ f.shift_left * q) % (2 ^ f.shift_left * 2 ^ f.len) :=
              (Int.mul_emod_mul_of_pos _ _ h2s).symm
          _ = v % 2 ^ (f.len + f.shift_left) := by rw [← hq, h2]
      rw [hsg]
      simp only [if_true]
      rw [hu, Nat.mul_div_cancel_left _ (by positivity), Nat.mul_div_cancel _ htpos, Nat.mod_mod]
      have hz : (r % 2 ^ f.len) * 2 ^ f.shift_left =
          (v % ((2 : Int) ^ (f.len + f.shift_left))).toNat := by
        rw [← hzInt, Int.toNat_natCast]
      rw [hz]
      apply sext_emod _ (by omega) _
      · have he : f.len + f.shift_left - 1 = f.len - 1 + f.shift_left := by omega
        rw [he]
        exact hdl
      · have he : f.len + f.shift_left - 1 = f.len - 1 + f.shift_left := by omega
        rw [he, pow_add]
        nlinarith
    · -- unsigned, non-split
      have hsgF : f.signed = false := by revert hsg; cases f.signed <;> simp
      unfold Field.legalDomain at hdom
      rw [if_neg (by rw [hsgF]; simp)] at hdom
      unfold Field.max_value at hdom
      rw [Nat.shiftLeft_eq, one_mul] at hdom
      obtain ⟨hd0, hd1⟩ := hdom
      have h2s : (0 : Int) < 2 ^ f.shift_left := by positivity
      obtain ⟨q, hq⟩ := halign
      have hq0 : 0 ≤ q := by nlinarith
      have hqu : q ≤ (2 : Int) ^ f.len - 1 := by
        rw [hq] at hd1
        have hcast : (((2 ^ f.len - 1 : Nat) : Int)) = (2 : Int) ^ f.len - 1 := by
          have : (1 : Nat) ≤ 2 ^ f.len := Nat.one_le_two_pow
          push_cast [this]
          ring
        rw [hcast] at hd1
        nlinarith
      have hv32 : v < (2 : Int) ^ 32 := by
        have hle : (2 : Int) ^ (f.len + f.shift_left) ≤ 2 ^ 32 :=
          pow_le_pow_right₀ (by norm_num) (by omega)
        rw [pow_add] at hle
        rw [hq]
        nlinarith
      have hv : v % (2 ^ 32 : Int) = v := Int.emod_eq_of_lt (by nlinarith) hv32
      rw [hsgF, hv]
      simp only [Bool.false_eq_true, if_false]
      have hunat : v.toNat = 2 ^ f.shift_left * q.toNat := by
        have : v = ((2 ^ f.shift_left * q.toNat : Nat) : Int) := by
          push_cast [Int.toNat_of_nonneg hq0]
          rw [hq]
        rw [this, Int.toNat_natCast]
      have hqlt : q.toNat < 2 ^ f.len := by
        have h1 : ((q.toNat : Int)) = q := Int.toNat_of_nonneg hq0
        have h2 : ((q.toNat : Int)) < ((2 ^ f.len : Nat) : Int) := by
          push_cast
          omega
        exact_mod_cast h2
      rw [hunat, Nat.mul_div_cancel_left _ (by positivity), Nat.mod_eq_of_lt hqlt,
        Nat.mul_div_cancel _ htpos, Nat.mod_eq_of_lt hqlt]
      have : (q.toNat * 2 ^ f.shift_left : Nat) = v.toNat := by
        rw [hunat]; ring
      rw [this, Int.toNat_of_nonneg (by nlinarith)]

/-- C1: the round-trip law as stated — `extract (insert v) = v` for every
value in the field's legal domain — fails on the code: for the signed
shift-2 branch-displacement field, the value 1 lies in the legal domain
`[-(2^15), (2^13-1)*4]` but inserting truncates the two sub-alignment bits
away, so the round trip returns 0, not 1. -/
theorem c1_counterexample :
    fieldBD.legalDomain 1 ∧ fieldBD.Wf ∧ fieldBD.extract (fieldBD.insert 1) = 0 := by
  refine ⟨by decide, by decide, by decide⟩

/-- C1 (amended): for every well-formed field descriptor and every value
in the field's legal domain that is a multiple of `2^shift_left` (every
value the field can represent exactly), decoding recovers the encoded
value — including fields with a post-extraction left shift, signed fields
and split fields; and the shift-skipping optimization of `gen_field`
produces a word identical to the unoptimized staging whenever the field's
natural bit position equals its post-shift position. -/
theorem c1_round_trip_aligned :
    (∀ (f : Field) (v : Int), f.Wf → f.legalDomain v → ((2 : Int) ^ f.shift_left) ∣ v →
      f.extract (f.insert v) = v) ∧
    (∀ (f : Field) (u : Nat), f.shift = f.shift_left →
      gen_field_value f 0 0 u = gen_field_value f f.shift f.shift_left u) :=
  ⟨fun f v hwf hdom hal => Field.round_trip f hwf v hdom hal,
   fun f u h => gen_field_value_opt_eq f u h⟩

theorem c1_witness :
    fieldBD.extract (fieldBD.insert (-4)) = -4 ∧
    gen_field_value fieldBD 0 0 77 = gen_field_value fieldBD fieldBD.shift fieldBD.shift_left 77 :=
  ⟨c1_round_trip_aligned.1 fieldBD (-4) (by decide) (by decide) ⟨-1, by decide⟩,
   c1_round_trip_aligned.2 fieldBD 77 (by decide)⟩

/-- C2: the claim fails on the code: for the signed 14-bit shift-2
branch-displacement field the claimed legal domain tops out at
`(2^13-1) << 2 = 32764`, yet assembling with 32765 passes the emitted
range check (whose bound is `1 << (14-1+2) = 32768`) and silently encodes
the truncated word 32764 instead of returning `ValueOutOfRange`. -/
theorem c2_counterexample :
    ((2 : Int) ^ (14 - 1) - 1) * 2 ^ 2 < 32765 ∧
    encode_signed_field fieldBD 32765 = .ok 32764 := by
  refine ⟨by norm_num, by rfl⟩

/-- C2 (amended): for every signed field with `n` bits and left shift `s`,
the emitted range check accepts exactly the interval
`[-(1 << (n-1+s)), 1 << (n-1+s)]`: a value inside it passes the check and
the field is encoded (values not a multiple of `2^s` — and the upper
endpoint itself — are truncated or wrapped by the insertion), and a value
outside it yields `ValueOutOfRange` with no output word. -/
theorem c2_signed_range (f : Field) (v : Int) :
    ((-((2 : Int) ^ (f.len - 1 + f.shift_left)) ≤ v ∧
        v ≤ 2 ^ (f.len - 1 + f.shift_left)) →
      encode_signed_field f v = .ok (f.insert v)) ∧
    ((v < -((2 : Int) ^ (f.len - 1 + f.shift_left)) ∨
        (2 : Int) ^ (f.len - 1 + f.shift_left) < v) →
      encode_signed_field f v = .error .ValueOutOfRange) := by
  constructor
  · intro h
    unfold encode_signed_field gen_parse_field_signed parse_signed
    rw [if_neg (by push_neg; exact h)]
    rfl
  · intro h
    unfold encode_signed_field gen_parse_field_signed parse_signed
    rw [if_pos h]
    rfl

theorem c2_witness :
    encode_signed_field fieldBD 100 = .ok (fieldBD.insert 100) ∧
    encode_signed_field fieldBD 40000 = .error .ValueOutOfRange :=
  ⟨(c2_signed_range fieldBD 100).1 (by decide),
   (c2_signed_range fieldBD 40000).2 (by decide)⟩

/-- C10: hashing an instruction depends only on its raw 32-bit code and
not on its classified opcode tag — two instructions with equal codes feed
identical data to any hasher even when their operations differ. -/
theorem c10_hash_code_only {σ : Type} (step : σ → Nat → σ) (state : σ)
    (a b : Ins) (h : a.code = b.code) :
    Ins.hashFeed step state a = Ins.hashFeed step state b := by
  unfold Ins.hashFeed
  rw [h]

theorem c10_witness :
    Ins.hashFeed (fun s n => s + n) 0 ⟨0x4E800020, Opcode.Bclr⟩ =
      Ins.hashFeed (fun s n => s + n) 0 ⟨0x4E800020, Opcode.Illegal⟩ ∧
    Opcode.Bclr ≠ Opcode.Illegal :=
  ⟨c10_hash_code_only (fun s n => s + n) 0 ⟨0x4E800020, Opcode.Bclr⟩
      ⟨0x4E800020, Opcode.Illegal⟩ rfl,
   by decide⟩

/-- C6: `is_unconditional_branch` holds exactly for the dedicated
unconditional branch opcode, or for one of the conditional-branch-family
opcodes whose branch-options field encodes "always" (20) and whose
condition-bit-index field is zero; and `is_conditional_branch` holds
exactly for branches that are not unconditional. -/
theorem c6_branch_classification (i : Ins) :
    (i.is_unconditional_branch = true ↔
      (i.op = .B ∨ ((i.op = .Bc ∨ i.op = .Bcctr ∨ i.op = .Bclr) ∧
        field_bo i.code = 20 ∧ field_bi i.code = 0))) ∧
    (i.is_conditional_branch = true ↔
      (i.is_branch = true ∧ i.is_unconditional_branch = false)) := by
  constructor
  · unfold Ins.is_unconditional_branch
    cases h : i.op <;> simp [h]
  · unfold Ins.is_conditional_branch
    simp

/-- C5: for a direct branch with the absolute-address modifier bit set,
the destination is the raw offset itself regardless of the address; with
the bit clear it is `addr + offset`, and `none` when that signed addition
overflows the 32-bit address space; for operations with no branch offset
the destination is `none`. -/
theorem c5_branch_dest :
    (∀ (i : Ins) (addr : Nat) (off : Int), i.branch_offset = some off →
      (field_aa i.code = true →
        i.branch_dest addr = some ((off % ((2 : Int) ^ 32)).toNat)) ∧
      (field_aa i.code = false → 0 ≤ (addr : Int) + off → (addr : Int) + off < 2 ^ 32 →
        i.branch_dest addr = some ((addr : Int) + off).toNat) ∧
      (field_aa i.code = false →
        ((addr : Int) + off < 0 ∨ (2 : Int) ^ 32 ≤ (addr : Int) + off) →
        i.branch_dest addr = none)) ∧
    (∀ (i : Ins) (addr : Nat), i.op ≠ .B → i.op ≠ .Bc → i.branch_dest addr = none) := by
  constructor
  · intro i addr off hoff
    refine ⟨?_, ?_, ?_⟩
    · intro haa
      unfold Ins.branch_dest
      rw [hoff]
      simp [haa]
    · intro haa h1 h2
      unfold Ins.branch_dest checked_add_signed
      rw [hoff]
      simp only [Option.some_bind, haa, Bool.false_eq_true, if_false]
      rw [if_pos ⟨h1, h2⟩]
    · intro haa h
      unfold Ins.branch_dest checked_add_signed
      rw [hoff]
      simp only [Option.some_bind, haa, Bool.false_eq_true, if_false]
      rw [if_neg]
      rintro ⟨g1, g2⟩
      rcases h with h | h <;> omega
  · intro i addr hB hBc
    unfold Ins.branch_dest Ins.branch_offset
    cases hop : i.op <;> simp_all

theorem c5_witness :
    Ins.branch_dest ⟨0x48000012, Opcode.B⟩ 0x1234 = some 0x10 ∧
    Ins.branch_dest ⟨0x4BFFFFFC, Opcode.B⟩ 0x1000 = some 0xFFC ∧
    Ins.branch_dest ⟨0x60000000, Opcode.Other⟩ 0x1000 = none := by
  refine ⟨?_, ?_, ?_⟩
  · have h := ((c5_branch_dest.1 ⟨0x48000012, Opcode.B⟩ 0x1234 0x10 (by decide)).1 (by decide))
    rw [h]
    decide
  · have h := ((c5_branch_dest.1 ⟨0x4BFFFFFC, Opcode.B⟩ 0x1000 (-4) (by decide)).2.1
      (by decide) (by norm_num) (by norm_num))
    rw [h]
    decide
  · exact c5_branch_dest.2 ⟨0x60000000, Opcode.Other⟩ 0x1000 (by decide) (by decide)

theorem not32_testBit (idx i : Nat) :
    (((1 <<< idx) ^^^ (2 ^ 32 - 1)).testBit i) =
      ((decide (idx = i)).xor (decide (i < 32))) := by
  rw [Nat.shiftLeft_eq, one_mul, Nat.testBit_xor, Nat.testBit_two_pow,
    Nat.testBit_two_pow_sub_one]

/-- C4: `insert` sets every bit of the extension's effective
(prerequisite-inclusive) bitmask, after which `contains` holds; `remove`
clears only the extension's own bit and leaves every other bit unchanged;
inserting then removing therefore keeps every prerequisite or sibling bit
that the insert set (other than the extension's own bit). -/
theorem c4_insert_remove (s : Extensions) (e : Extension) (hs : s.bits < 2 ^ 32) :
    (∀ i, (s.insert e).bits.testBit i = (s.bits.testBit i || e.bitmask.testBit i)) ∧
    (s.insert e).contains e = true ∧
    (s.remove e).bits.testBit e.index = false ∧
    (∀ i, i ≠ e.index → (s.remove e).bits.testBit i = s.bits.testBit i) ∧
    (∀ i, i ≠ e.index →
      ((s.insert e).remove e).bits.testBit i =
        (s.bits.testBit i || e.bitmask.testBit i)) := by
  have hbits : ∀ (x : Nat), x < 2 ^ 32 → ∀ i, ¬ i < 32 → x.testBit i = false := by
    intro x hx i hi
    exact Nat.testBit_lt_two_pow
      (lt_of_lt_of_le hx (Nat.pow_le_pow_right (by norm_num) (by omega)))
  refine ⟨?_, ?_, ?_, ?_, ?_⟩
  · intro i
    simp [Extensions.insert]
  · unfold Extensions.contains Extensions.insert
    rw [beq_iff_eq]
    apply Nat.eq_of_testBit_eq
    intro i
    simp only [Nat.testBit_and, Nat.testBit_or]
    cases s.bits.testBit i <;> cases e.bitmask.testBit i <;> rfl
  · unfold Extensions.remove
    rw [Nat.testBit_and, not32_testBit e.index e.index]
    simp [e.index_lt]
  · intro i hi
    unfold Extensions.remove
    rw [Nat.testBit_and, not32_testBit e.index i]
    by_cases hlt : i < 32
    · simp [hlt, Ne.symm hi]
    · rw [hbits s.bits hs i hlt]
      simp
  · intro i hi
    unfold Extensions.remove Extensions.insert
    rw [Nat.testBit_and, not32_testBit e.index i, Nat.testBit_or]
    by_cases hlt : i < 32
    · simp [hlt, Ne.symm hi]
    · rw [hbits s.bits hs i hlt, hbits e.bitmask e.bitmask_lt i hlt]
      simp

/-- A concrete extension with a prerequisite: own bit 2, effective bitmask
with bits 1 and 2. -/
def extWithPrereq : Extension :=
  ⟨2, 6, by decide, by decide, by decide⟩

theorem c4_witness :
    ((Extensions.insert ⟨8⟩ extWithPrereq).contains extWithPrereq = true) ∧
    (((Extensions.insert ⟨8⟩ extWithPrereq).remove extWithPrereq).bits.testBit 1 = true) ∧
    (((Extensions.insert ⟨8⟩ extWithPrereq).remove extWithPrereq).bits.testBit 2 = false) := by
  have h := c4_insert_remove ⟨8⟩ extWithPrereq (by decide)
  refine ⟨h.2.1, ?_, ?_⟩
  · rw [h.2.2.2.2 1 (by decide)]
    decide
  · have h2 := c4_insert_remove (Extensions.insert ⟨8⟩ extWithPrereq) extWithPrereq (by decide)
    exact h2.2.2.1

theorem le_foldl_max (l : List Nat) : ∀ (a : Nat), a ≤ l.foldl Nat.max a := by
  induction l with
  | nil => intro a; exact le_refl a
  | cons h t ih =>
      intro a
      exact le_trans (Nat.le_max_left a h) (ih (Nat.max a h))

theorem foldl_max_le (l : List Nat) : ∀ (a x : Nat), x ∈ l → x ≤ l.foldl Nat.max a := by
  induction l with
  | nil => intro a x hx; cases hx
  | cons h t ih =>
      intro a x hx
      rcases List.mem_cons.mp hx with rfl | hx
      · exact le_trans (Nat.le_max_right a x) (le_foldl_max t (Nat.max a x))
      · exact ih (Nat.max a h) x hx

theorem foldl_max_attained (l : List Nat) :
    ∀ (a : Nat), l.foldl Nat.max a = a ∨ l.foldl Nat.max a ∈ l := by
  induction l with
  | nil => intro a; exact Or.inl rfl
  | cons h t ih =>
      intro a
      rcases ih (Nat.max a h) with heq | hmem
      · rcases le_total a h with hab | hab
        · refine Or.inr ?_
          rw [List.foldl_cons, heq]
          have hmax : Nat.max a h = h := by unfold Nat.max; exact max_eq_right hab
          rw [hmax]
          exact List.mem_cons_self h t
        · refine Or.inl ?_
          rw [List.foldl_cons, heq]
          unfold Nat.max
          exact max_eq_left hab
      · exact Or.inr (List.mem_cons_of_mem h hmem)

theorem find_arity (ms : List MnemonicEntry) (n : Nat) :
    (ms.map (fun m => m.arity)).Pairwise (· ≠ ·) →
    ∀ m : MnemonicEntry, m ∈ ms → m.arity = n →
      ms.find? (fun x => x.arity == n) = some m := by
  induction ms with
  | nil => intro _ m hm; cases hm
  | cons h t ih =>
      intro hp m hm ha
      rw [List.map_cons, List.pairwise_cons] at hp
      rcases List.mem_cons.mp hm with rfl | hmem
      · exact List.find?_cons_of_pos t (by simp [ha])
      · have hne : h.arity ≠ n := by
          rw [← ha]
          exact hp.1 m.arity (List.mem_map.mpr ⟨m, hmem, rfl⟩)
        rw [List.find?_cons_of_neg t (by simp [hne])]
        exact ih hp.2 m hmem ha

/-- C3: for a name shared by two or more mnemonics of pairwise-different
arities, the compiled dispatch runs the encoder of the mnemonic whose
arity matches the supplied argument count, and any other count yields an
`ArgCount` error whose expected value is the largest accepted arity. -/
theorem c3_dispatch (ms : List MnemonicEntry) (args : List Argument)
    (hlen : 2 ≤ ms.length)
    (hdist : (ms.map (fun m => m.arity)).Pairwise (· ≠ ·)) :
    (∀ m ∈ ms, m.arity = arg_count args → gen_dispatch ms args = m.encode args) ∧
    ((∀ m ∈ ms, m.arity ≠ arg_count args) →
      gen_dispatch ms args =
        .error (.ArgCount (arg_count args) ((ms.map (fun m => m.arity)).foldl Nat.max 0)) ∧
      (∃ m ∈ ms, m.arity = (ms.map (fun m => m.arity)).foldl Nat.max 0) ∧
      (∀ m ∈ ms, m.arity ≤ (ms.map (fun m => m.arity)).foldl Nat.max 0)) := by
  constructor
  · intro m hm ha
    unfold gen_dispatch
    rw [find_arity ms (arg_count args) hdist m hm ha]
  · intro hnone
    have hfind : ms.find? (fun x => x.arity == arg_count args) = none :=
      List.find?_eq_none.mpr (fun x hx => by simp [hnone x hx])
    refine ⟨by unfold gen_dispatch; rw [hfind], ?_, ?_⟩
    · rcases foldl_max_attained (ms.map (fun m => m.arity)) 0 with heq | hmem
      · cases ms with
        | nil => simp at hlen
        | cons h t =>
            refine ⟨h, List.mem_cons_self h t, ?_⟩
            have hle : h.arity ≤ ((h :: t).map (fun m => m.arity)).foldl Nat.max 0 :=
              foldl_max_le _ 0 h.arity (by simp)
            omega
      · rcases List.mem_map.mp hmem with ⟨m, hm, hma⟩
        exact ⟨m, hm, hma⟩
    · intro m hm
      exact foldl_max_le _ 0 m.arity (List.mem_map.mpr ⟨m, hm, rfl⟩)

theorem c3_witness :
    gen_dispatch [mnemonicArity1, mnemonicArity3] [Argument.GPR 1] = .ok 111 ∧
    gen_dispatch [mnemonicArity1, mnemonicArity3] [] = .error (.ArgCount 0 3) := by
  constructor
  · have h := (c3_dispatch [mnemonicArity1, mnemonicArity3] [Argument.GPR 1]
      (by decide) (by decide)).1 mnemonicArity1 (List.mem_cons_self _ _) (by decide)
    exact h
  · have h := (c3_dispatch [mnemonicArity1, mnemonicArity3] []
      (by decide) (by decide)).2 ?_
    · exact h.1
    · intro m hm
      rcases List.mem_cons.mp hm with rfl | hm
      · decide
      · rcases List.mem_cons.mp hm with rfl | hm
        · decide
        · cases hm

theorem insIterList_length (ext : Extensions) :
    ∀ (data : List Nat) (addr : Nat), (insIterList ext addr data).length = data.length / 4
  | [], _ => rfl
  | [_], _ => by simp [insIterList]
  | [_, _], _ => by simp [insIterList]
  | [_, _, _], _ => by simp [insIterList]
  | _ :: _ :: _ :: _ :: rest, addr => by
      show (insIterList ext addr (_ :: _ :: _ :: _ :: rest)).length = _
      rw [insIterList]
      simp only [List.length_cons]
      rw [insIterList_length ext rest ((addr + 4) % 2 ^ 32)]
      omega

theorem insIterList_get (ext : Extensions) :
    ∀ (data : List Nat) (addr : Nat), addr < 2 ^ 32 → ∀ (i : Nat), i < data.length / 4 →
      (insIterList ext addr data)[i]? =
        some ((addr + 4 * i) % 2 ^ 32,
          Ins.new (be32 data[4 * i]! data[4 * i + 1]! data[4 * i + 2]! data[4 * i + 3]!) ext)
  | [], _, _, i, hi => by
      simp only [List.length_nil] at hi
      omega
  | [_], _, _, i, hi => by
      simp only [List.length_cons, List.length_nil] at hi
      omega
  | [_, _], _, _, i, hi => by
      simp only [List.length_cons, List.length_nil] at hi
      omega
  | [_, _, _], _, _, i, hi => by
      simp only [List.length_cons, List.length_nil] at hi
      omega
  | b0 :: b1 :: b2 :: b3 :: rest, addr, haddr, 0, hi => by
      rw [insIterList]
      have h0 : (b0 :: b1 :: b2 :: b3 :: rest)[4 * 0]! = b0 := rfl
      have h1 : (b0 :: b1 :: b2 :: b3 :: rest)[4 * 0 + 1]! = b1 := rfl
      have h2 : (b0 :: b1 :: b2 :: b3 :: rest)[4 * 0 + 2]! = b2 := rfl
      have h3 : (b0 :: b1 :: b2 :: b3 :: rest)[4 * 0 + 3]! = b3 := by
        have e : 4 * 0 + 3 = 0 + 1 + 1 + 1 := by omega
        rw [e, List.getElem!_cons_succ, List.getElem!_cons_succ, List.getElem!_cons_succ,
          List.getElem!_cons_zero]
      have ha : (addr + 4 * 0) % 2 ^ 32 = addr := by
        rw [Nat.mul_zero, Nat.add_zero]
        exact Nat.mod_eq_of_lt haddr
      rw [List.getElem?_cons_zero, h0, h1, h2, h3, ha]
  | b0 :: b1 :: b2 :: b3 :: rest, addr, haddr, j + 1, hi => by
      rw [insIterList]
      simp only [List.getElem?_cons_succ]
      have hrest : j < rest.length / 4 := by
        simp only [List.length_cons] at hi
        omega
      rw [insIterList_get ext rest ((addr + 4) % 2 ^ 32) (Nat.mod_lt _ (by norm_num)) j hrest]
      have haddr4 : ((addr + 4) % 2 ^ 32 + 4 * j) % 2 ^ 32 = (addr + 4 * (j + 1)) % 2 ^ 32 := by
        rw [Nat.mod_add_mod]
        congr 1
        omega
      have hidx : ∀ (k : Nat),
          (b0 :: b1 :: b2 :: b3 :: rest)[4 * (j + 1) + k]! = rest[4 * j + k]! := by
        intro k
        have h4 : 4 * (j + 1) + k = (4 * j + k) + 1 + 1 + 1 + 1 := by omega
        rw [h4]
        simp only [List.getElem!_cons_succ]
      have hidx0 : (b0 :: b1 :: b2 :: b3 :: rest)[4 * (j + 1)]! = rest[4 * j]! := by
        have h4 : 4 * (j + 1) = 4 * j + 1 + 1 + 1 + 1 := by omega
        rw [h4]
        simp only [List.getElem!_cons_succ]
      rw [haddr4, hidx0, hidx 1, hidx 2, hidx 3]

/-- C7: the instruction stream iterator yields exactly `len / 4` items;
the `i`-th item carries address `start + 4 * i` and the instruction
decoded from the big-endian 32-bit word at byte offset `4 * i`; fewer
than 4 remaining bytes end the stream without a final item. -/
theorem c7_stream (ext : Extensions) (start : Nat) (data : List Nat)
    (hbytes : ∀ b ∈ data, b < 256)
    (hfit : start + 4 * (data.length / 4) ≤ 2 ^ 32) :
    (insIterList ext start data).length = data.length / 4 ∧
    ∀ i, i < data.length / 4 →
      (insIterList ext start data)[i]? =
        some (start + 4 * i,
          Ins.new (be32 data[4 * i]! data[4 * i + 1]! data[4 * i + 2]! data[4 * i + 3]!)
            ext) := by
  refine ⟨insIterList_length ext data start, ?_⟩
  intro i hi
  have hlt : start + 4 * i < 2 ^ 32 := by omega
  have hstart : start < 2 ^ 32 := by omega
  rw [insIterList_get ext data start hstart i hi, Nat.mod_eq_of_lt hlt]

theorem c7_witness :
    (insIterList Extensions.noExt 0x100 [0x48, 0, 0, 0x12, 0xAA, 0xBB]).length = 1 ∧
    (insIterList Extensions.noExt 0x100 [0x48, 0, 0, 0x12, 0xAA, 0xBB])[0]? =
      some (0x100, Ins.new 0x48000012 Extensions.noExt) ∧
    insIterList Extensions.noExt 0x100 [1, 2, 3] = [] := by
  refine ⟨(c7_stream Extensions.noExt 0x100 [0x48, 0, 0, 0x12, 0xAA, 0xBB]
      (by decide) (by norm_num)).1, ?_, rfl⟩
  have h := (c7_stream Extensions.noExt 0x100 [0x48, 0, 0, 0x12, 0xAA, 0xBB]
      (by decide) (by norm_num)).2 0 (by norm_num)
  rw [h]
  rfl

theorem specTokens_pair (o : Int) (r : Nat) (rest : List Argument) :
    specTokens (Argument.Offset o :: Argument.GPR r :: rest) =
      (argToString (Argument.Offset o) ++ "(" ++ argToString (Argument.GPR r) ++ ")")
        :: specTokens rest := rfl

theorem specTokens_other (a : Argument) (rest : List Argument) (hn : isOffset a = false) :
    specTokens (a :: rest) = argToString a :: specTokens rest := by
  cases a <;> first
    | rfl
    | (exfalso; simp [isOffset] at hn)

theorem renderArgs_spec (l : List Argument) (h : OffsetsPaired l) :
    ∀ (i : Nat), renderArgs l i false = specJoin i (specTokens l) := by
  induction h with
  | nil => intro i; rfl
  | pair o r rest hrest ih =>
      intro i
      have ih2 := ih (i + 1 + 1)
      rw [specTokens_pair]
      rcases hts : specTokens rest with _ | ⟨t, ts⟩
      · rw [hts] at ih2
        simp only [specJoin] at ih2 ⊢
        simp only [renderArgs, isOffset, commaTail]
        simp [ih2, String.append_assoc]
      · rw [hts] at ih2
        simp only [specJoin] at ih2 ⊢
        rw [if_neg (by omega)] at ih2
        simp only [renderArgs, isOffset, commaTail]
        simp [ih2, String.append_assoc]
  | other a rest hn hrest ih =>
      intro i
      have ih1 := ih (i + 1)
      rw [specTokens_other a rest hn]
      rcases hts : specTokens rest with _ | ⟨t, ts⟩
      · rw [hts] at ih1
        simp only [specJoin] at ih1 ⊢
        simp only [renderArgs, hn, commaTail]
        simp [ih1, String.append_assoc]
      · rw [hts] at ih1
        simp only [specJoin] at ih1 ⊢
        rw [if_neg (by omega)] at ih1
        simp only [renderArgs, hn, commaTail]
        simp [ih1, String.append_assoc]

/-- C8: under the parser invariant that every `Offset` argument is
immediately followed by a register argument, rendering prints the
mnemonic, one space, then the arguments separated by `", "`, except that
an `Offset` and the register after it print as `offset(register)`. -/
theorem c8_render (p : ParsedIns) (h : OffsetsPaired p.argsIter) :
    p.render = renderSpec p := by
  unfold ParsedIns.render renderSpec
  rw [renderArgs_spec p.argsIter h 0]

theorem c8_witness :
    ParsedIns.render ⟨"lwz", [Argument.GPR 3, Argument.Offset 4, Argument.GPR 5]⟩ =
      "lwz r3, 0x4(r5)" ∧
    renderSpec ⟨"lwz", [Argument.GPR 3, Argument.Offset 4, Argument.GPR 5]⟩ =
      "lwz r3, 0x4(r5)" := by
  have h := c8_render ⟨"lwz", [Argument.GPR 3, Argument.Offset 4, Argument.GPR 5]⟩
    (by
      unfold ParsedIns.argsIter
      simp only [List.takeWhile]
      norm_num
      exact OffsetsPaired.other _ _ rfl
        (OffsetsPaired.pair 4 5 [] OffsetsPaired.nil))
  constructor
  · rw [h]
    rfl
  · rfl

theorem wrapSigned_eq_self (bits : Nat) (x : Int) (h1 : -((2 : Int) ^ (bits - 1)) ≤ x)
    (h2 : x < 2 ^ (bits - 1)) (hb : 0 < bits) : wrapSigned bits x = x := by
  unfold wrapSigned
  have hpow : (2 : Int) ^ bits = 2 * 2 ^ (bits - 1) := by
    conv_lhs => rw [show bits = (bits - 1) + 1 by omega]
    ring
  rw [Int.emod_eq_of_lt (by omega) (by omega)]
  omega

/-- C9: a negative signed 16-bit (resp. 32-bit) value renders as a minus
sign followed by the hexadecimal magnitude, computed through the widened
`i32` (resp. `i64`) so that even the most negative representable value
negates exactly; non-negative values render as their plain hexadecimal
form; in particular `-1` renders as `-0x1` and `-0x8000` as `-0x8000`. -/
theorem c9_signed_hex :
    (∀ v : Int, -((2 : Int) ^ 15) ≤ v → v < 0 →
      signedHexI16 v = "-" ++ ("0x" ++ natHex (-v).toNat)) ∧
    (∀ v : Int, 0 ≤ v → v < 2 ^ 15 →
      signedHexI16 v = "0x" ++ natHex v.toNat) ∧
    (∀ v : Int, -((2 : Int) ^ 31) ≤ v → v < 0 →
      signedHexI32 v = "-" ++ ("0x" ++ natHex (-v).toNat)) ∧
    (∀ v : Int, 0 ≤ v → v < 2 ^ 31 →
      signedHexI32 v = "0x" ++ natHex v.toNat) ∧
    signedHexI16 (-1) = "-0x1" ∧ signedHexI16 (-(2 ^ 15)) = "-0x8000" := by
  have h16 : ∀ v : Int, -((2 : Int) ^ 15) ≤ v → v < 0 →
      signedHexI16 v = "-" ++ ("0x" ++ natHex (-v).toNat) := by
    intro v hlo hneg
    unfold signedHexI16
    rw [if_pos hneg, wrapSigned_eq_self 32 (-v) (by norm_num; omega) (by norm_num; omega)
      (by norm_num)]
    unfold lowerHexAlt
    rw [Int.emod_eq_of_lt (by omega) (by norm_num; omega)]
  have h32 : ∀ v : Int, -((2 : Int) ^ 31) ≤ v → v < 0 →
      signedHexI32 v = "-" ++ ("0x" ++ natHex (-v).toNat) := by
    intro v hlo hneg
    unfold signedHexI32
    rw [if_pos hneg, wrapSigned_eq_self 64 (-v) (by norm_num; omega) (by norm_num; omega)
      (by norm_num)]
    unfold lowerHexAlt
    rw [Int.emod_eq_of_lt (by omega) (by norm_num; omega)]
  refine ⟨h16, ?_, h32, ?_, ?_, ?_⟩
  · intro v h0 hlt
    unfold signedHexI16
    rw [if_neg (by omega)]
    unfold lowerHexAlt
    rw [Int.emod_eq_of_lt h0 (by norm_num; omega)]
  · intro v h0 hlt
    unfold signedHexI32
    rw [if_neg (by omega)]
    unfold lowerHexAlt
    rw [Int.emod_eq_of_lt h0 (by norm_num; omega)]
  · rw [h16 (-1) (by norm_num) (by norm_num)]
    rfl
  · rw [h16 (-(2 ^ 15)) (by norm_num) (by norm_num)]
    rfl

theorem c9_witness :
    signedHexI16 (-0x1234) = "-0x1234" ∧ signedHexI16 (0x7FFF) = "0x7fff" ∧
    signedHexI32 (-(2 ^ 31)) = "-0x80000000" := by
  refine ⟨?_, ?_, ?_⟩
  · rw [c9_signed_hex.1 (-0x1234) (by norm_num) (by norm_num)]
    rfl
  · rw [c9_signed_hex.2.1 0x7FFF (by norm_num) (by norm_num)]
    rfl
  · rw [c9_signed_hex.2.2.1 (-(2 ^ 31)) (by norm_num) (by norm_num)]
    rfl

end Ppc
